import Mathlib

/-!
Shallow embedding of the chord-sheet editor core (lyrics/chord annotation
model, section handling, drag clamping, transposition engine, and the
bar-chart hold-inference algorithm), translated from the TypeScript source.
JavaScript strings are modelled as lists of characters.
-/

namespace ChordSheet

/-- Strings of the source program, modelled as lists of characters. -/
abbrev Str := List Char

/-! ## Transposition engine (utils/transpose) -/

/-- Chromatic scale using sharps, from the source constant CHROMATIC_SHARP. -/
def CHROMATIC_SHARP : List Str :=
  [['C'], ['C', '♯'], ['D'], ['D', '♯'], ['E'], ['F'], ['F', '♯'],
   ['G'], ['G', '♯'], ['A'], ['A', '♯'], ['B']]

/-- Chromatic scale using flats, from the source constant CHROMATIC_FLAT. -/
def CHROMATIC_FLAT : List Str :=
  [['C'], ['D', '♭'], ['D'], ['E', '♭'], ['E'], ['F'], ['G', '♭'],
   ['G'], ['A', '♭'], ['A'], ['B', '♭'], ['B']]

/-- Note-to-semitone-index table, from the source record NOTE_TO_INDEX. -/
def NOTE_TO_INDEX : List (Str × Nat) :=
  [(['C'], 0), (['C', '♯'], 1), (['C', '#'], 1), (['D', '♭'], 1), (['D', 'b'], 1),
   (['D'], 2), (['D', '♯'], 3), (['D', '#'], 3), (['E', '♭'], 3), (['E', 'b'], 3),
   (['E'], 4), (['E', '♯'], 5), (['E', '#'], 5), (['F', '♭'], 4), (['F', 'b'], 4),
   (['F'], 5), (['F', '♯'], 6), (['F', '#'], 6), (['G', '♭'], 6), (['G', 'b'], 6),
   (['G'], 7), (['G', '♯'], 8), (['G', '#'], 8), (['A', '♭'], 8), (['A', 'b'], 8),
   (['A'], 9), (['A', '♯'], 10), (['A', '#'], 10), (['B', '♭'], 10), (['B', 'b'], 10),
   (['B'], 11), (['B', '♯'], 0), (['B', '#'], 0), (['C', '♭'], 11), (['C', 'b'], 11)]

/-- Record lookup NOTE_TO_INDEX[note], yielding none for an unknown key. -/
def lookupNote (note : Str) : Option Nat :=
  (NOTE_TO_INDEX.find? (fun p => p.1 == note)).map (fun p => p.2)

/-- Characters matching the character class [A-G] of the root-note regex. -/
def isRootLetter (c : Char) : Bool := 'A' ≤ c && c ≤ 'G'

/-- Characters matching the accidental character class of the root-note regex. -/
def isAccidental (c : Char) : Bool := c == '♯' || c == '♭' || c == '#' || c == 'b'

/-- Match of the anchored root-note pattern (letter plus optional accidental)
against the start of a string, returning the matched root and the remainder. -/
def matchRoot : Str → Option (Str × Str)
  | [] => none
  | c :: rest =>
    if isRootLetter c then
      match rest with
      | c2 :: rest2 =>
        if isAccidental c2 then some ([c, c2], rest2) else some ([c], rest)
      | [] => some ([c], [])
    else none

/-- A string that is empty or consists of whitespace only, mirroring the
source guard on the empty string and on trim() producing the empty string. -/
def isBlank (s : Str) : Bool := s.all Char.isWhitespace

/-- Result record of parseChord: root note, quality, and optional bass note. -/
structure ParsedChord where
  root : Str
  quality : Str
  bass : Option Str
deriving DecidableEq, Repr

/-- Parse a chord symbol into root, quality and optional bass, translated
from the source function parseChord. -/
def parseChord (chord : Str) : Option ParsedChord :=
  if chord.isEmpty || isBlank chord then none
  else
    let mainAndBass : Str × Option Str :=
      match chord.findIdx? (fun c => c == '/') with
      | some k =>
        if 0 < k then
          let bassStr := chord.drop (k + 1)
          let b := if 1 ≤ bassStr.length then (matchRoot bassStr).map (fun p => p.1) else none
          (chord.take k, b)
        else (chord, none)
      | none => (chord, none)
    match matchRoot mainAndBass.1 with
    | none => none
    | some (root, quality) => some ⟨root, quality, mainAndBass.2⟩

/-- Replacement of the first occurrence of a character, mirroring the
behaviour of String.replace with a one-character string pattern. -/
def replaceFirst : Str → Char → Char → Str
  | [], _, _ => []
  | c :: rest, a, b => if c == a then b :: rest else c :: replaceFirst rest a b

/-- Transpose a single note by semitones, translated from the source
function transposeNote. -/
def transposeNote (note : Str) (semitones : Int) (preferFlats : Bool) : Str :=
  let normalizedNote := replaceFirst (replaceFirst note '#' '♯') 'b' '♭'
  match (lookupNote normalizedNote).orElse (fun _ => lookupNote note) with
  | none => note
  | some index =>
    let r := Int.tmod ((index : Int) + semitones) 12
    let newIndex := if r < 0 then r + 12 else r
    let scale := if preferFlats then CHROMATIC_FLAT else CHROMATIC_SHARP
    scale.getD newIndex.toNat []

/-- Transpose a chord symbol by semitones, translated from the source
function transposeChord. -/
def transposeChord (chord : Str) (semitones : Int) (preferFlats : Bool) : Str :=
  if semitones = 0 then chord
  else
    match parseChord chord with
    | none => chord
    | some parsed =>
      let newRoot := transposeNote parsed.root semitones preferFlats
      let result := newRoot ++ parsed.quality
      match parsed.bass with
      | some b => result ++ '/' :: transposeNote b semitones preferFlats
      | none => result

/-- Flat preference derived from a chord's notation, translated from the
source function shouldPreferFlats. -/
def shouldPreferFlats (chordSymbol : Str) : Bool :=
  chordSymbol.contains '♭' || chordSymbol.contains 'b'

/-! ## Static chord catalog (data/chords) -/

/-- Chord categories of the catalog. -/
inductive ChordCategory where
  | major | minor | seventh | majorSeventh | minorSeventh
  | suspended | add | extended | diminished | augmented
deriving DecidableEq, Repr

/-- A catalog entry: symbol, human-readable name, root note and category. -/
structure ChordDefinition where
  symbol : Str
  name : Str
  root : Str
  category : Option ChordCategory
deriving DecidableEq, Repr

/-- Root notes of the catalog, in source order (constant ROOT_NOTES). -/
def ROOT_NOTES : List Str :=
  [['A'], ['A', '♯'], ['B', '♭'], ['B'], ['C'], ['C', '♯'], ['D', '♭'], ['D'],
   ['D', '♯'], ['E', '♭'], ['E'], ['F'], ['F', '♯'], ['G', '♭'], ['G'],
   ['G', '♯'], ['A', '♭']]

/-- Chord variations generated for one root note, translated from the source
function generateChordsForRoot, in source push order. -/
def generateChordsForRoot (root : Str) : List ChordDefinition :=
  [⟨root, root ++ [' ', 'M', 'a', 'j', 'o', 'r'], root, some .major⟩,
   ⟨root ++ ['m'], root ++ [' ', 'M', 'i', 'n', 'o', 'r'], root, some .minor⟩,
   ⟨root ++ ['7'],
    root ++ [' ', 'D', 'o', 'm', 'i', 'n', 'a', 'n', 't', ' ', '7', 't', 'h'],
    root, some .seventh⟩,
   ⟨root ++ ['m', 'a', 'j', '7'],
    root ++ [' ', 'M', 'a', 'j', 'o', 'r', ' ', '7', 't', 'h'],
    root, some .majorSeventh⟩,
   ⟨root ++ ['m', '7'],
    root ++ [' ', 'M', 'i', 'n', 'o', 'r', ' ', '7', 't', 'h'],
    root, some .minorSeventh⟩,
   ⟨root ++ ['m', '(', 'm', 'a', 'j', '7', ')'],
    root ++ [' ', 'M', 'i', 'n', 'o', 'r', ' ', 'M', 'a', 'j', 'o', 'r', ' ', '7', 't', 'h'],
    root, some .minorSeventh⟩,
   ⟨root ++ ['s', 'u', 's', '2'],
    root ++ [' ', 'S', 'u', 's', 'p', 'e', 'n', 'd', 'e', 'd', ' ', '2', 'n', 'd'],
    root, some .suspended⟩,
   ⟨root ++ ['s', 'u', 's', '4'],
    root ++ [' ', 'S', 'u', 's', 'p', 'e', 'n', 'd', 'e', 'd', ' ', '4', 't', 'h'],
    root, some .suspended⟩,
   ⟨root ++ ['7', 's', 'u', 's', '4'],
    root ++ [' ', '7', 't', 'h', ' ', 'S', 'u', 's', 'p', 'e', 'n', 'd', 'e', 'd', ' ', '4', 't', 'h'],
    root, some .suspended⟩,
   ⟨root ++ ['a', 'd', 'd', '9'],
    root ++ [' ', 'A', 'd', 'd', ' ', '9', 't', 'h'], root, some .add⟩,
   ⟨root ++ ['a', 'd', 'd', '1', '1'],
    root ++ [' ', 'A', 'd', 'd', ' ', '1', '1', 't', 'h'], root, some .add⟩,
   ⟨root ++ ['m', 'a', 'd', 'd', '9'],
    root ++ [' ', 'M', 'i', 'n', 'o', 'r', ' ', 'A', 'd', 'd', ' ', '9', 't', 'h'],
    root, some .add⟩,
   ⟨root ++ ['9'], root ++ [' ', '9', 't', 'h'], root, some .extended⟩,
   ⟨root ++ ['m', '9'],
    root ++ [' ', 'M', 'i', 'n', 'o', 'r', ' ', '9', 't', 'h'], root, some .extended⟩,
   ⟨root ++ ['m', 'a', 'j', '9'],
    root ++ [' ', 'M', 'a', 'j', 'o', 'r', ' ', '9', 't', 'h'], root, some .extended⟩,
   ⟨root ++ ['1', '1'], root ++ [' ', '1', '1', 't', 'h'], root, some .extended⟩,
   ⟨root ++ ['m', '1', '1'],
    root ++ [' ', 'M', 'i', 'n', 'o', 'r', ' ', '1', '1', 't', 'h'], root, some .extended⟩,
   ⟨root ++ ['1', '3'], root ++ [' ', '1', '3', 't', 'h'], root, some .extended⟩,
   ⟨root ++ ['d', 'i', 'm'],
    root ++ [' ', 'D', 'i', 'm', 'i', 'n', 'i', 's', 'h', 'e', 'd'],
    root, some .diminished⟩,
   ⟨root ++ ['d', 'i', 'm', '7'],
    root ++ [' ', 'D', 'i', 'm', 'i', 'n', 'i', 's', 'h', 'e', 'd', ' ', '7', 't', 'h'],
    root, some .diminished⟩,
   ⟨root ++ ['a', 'u', 'g'],
    root ++ [' ', 'A', 'u', 'g', 'm', 'e', 'n', 't', 'e', 'd'],
    root, some .augmented⟩,
   ⟨root ++ ['a', 'u', 'g', '7'],
    root ++ [' ', 'A', 'u', 'g', 'm', 'e', 'n', 't', 'e', 'd', ' ', '7', 't', 'h'],
    root, some .augmented⟩,
   ⟨root ++ ['5'],
    root ++ [' ', 'P', 'o', 'w', 'e', 'r', ' ', 'C', 'h', 'o', 'r', 'd'],
    root, some .major⟩,
   ⟨root ++ ['6'], root ++ [' ', '6', 't', 'h'], root, some .major⟩,
   ⟨root ++ ['m', '6'],
    root ++ [' ', 'M', 'i', 'n', 'o', 'r', ' ', '6', 't', 'h'], root, some .minor⟩]

/-- The complete static catalog, translated from the source function
buildChordDatabase backing the constant CHORD_DATABASE. -/
def CHORD_DATABASE : List ChordDefinition :=
  ROOT_NOTES.flatMap generateChordsForRoot

/-- Semitone amounts from -12 to 12, the range quantified over by the
transposition round-trip property. -/
def semitoneRange : List Int := (List.range 25).map (fun k => (k : Int) - 12)

/-- Round-trip check for one catalog entry: transposing by n and then by -n,
with the flat preference the application derives from the original symbol,
restores the symbol for every n in the range. -/
def roundTripOK (c : ChordDefinition) : Bool :=
  semitoneRange.all (fun n =>
    let pf := shouldPreferFlats c.symbol
    transposeChord (transposeChord c.symbol n pf) (-n) pf == c.symbol)

/-! ## Placed chords and line-level edit operations (LyricsEditor) -/

/-- A placed chord annotation, translated from the PlacedChord interface. -/
structure PlacedChord where
  id : Str
  chordSymbol : Str
  chordName : Str
  lineIndex : Nat
  charIndex : Nat
  offsetX : Int
deriving DecidableEq, Repr

/-- Editor state for one column: the lyric lines and the placed chords. -/
structure ColumnState where
  lines : List Str
  chords : List PlacedChord
deriving DecidableEq, Repr

/-- Enter-key edit from handleLineKeyDown: inserts an empty line after the
current line and shifts chords on strictly later lines down by one. -/
def enterKeyEdit (st : ColumnState) (lineIndex : Nat) : ColumnState :=
  { lines := st.lines.take (lineIndex + 1) ++ [[]] ++ st.lines.drop (lineIndex + 1),
    chords := st.chords.map (fun c =>
      if lineIndex < c.lineIndex then { c with lineIndex := c.lineIndex + 1 } else c) }

/-- Backspace-key edit from handleLineKeyDown: applies only when the current
line is empty and is not the first line; removes the line, removes its
chords, and shifts chords on strictly later lines up by one. -/
def backspaceKeyEdit (st : ColumnState) (lineIndex : Nat) : Option ColumnState :=
  if st.lines.getD lineIndex [] = [] ∧ 0 < lineIndex then
    some
      { lines := st.lines.eraseIdx lineIndex,
        chords := (st.chords.filter (fun c => c.lineIndex ≠ lineIndex)).map (fun c =>
          if lineIndex < c.lineIndex then { c with lineIndex := c.lineIndex - 1 } else c) }
  else none

/-- Split of pasted text on any newline convention, mirroring the source
split on the alternation of CRLF, CR and LF. -/
def splitNewlines : Str → List Str
  | [] => [[]]
  | '\r' :: '\n' :: rest => [] :: splitNewlines rest
  | '\r' :: rest => [] :: splitNewlines rest
  | '\n' :: rest => [] :: splitNewlines rest
  | c :: rest =>
    match splitNewlines rest with
    | [] => [[c]]
    | s :: ss => (c :: s) :: ss

/-- The guard of handleLinePaste: the pasted text contains a newline. -/
def containsNewline (s : Str) : Bool := s.contains '\n' || s.contains '\r'

/-- Multi-line paste edit from handleLinePaste: splits the current line at
the cursor, splices the pasted lines in between, and shifts chords on
strictly later lines by the number of added lines. -/
def pasteMultiline (st : ColumnState) (lineIndex cursorPos : Nat) (pasted : Str) :
    ColumnState :=
  let pastedLines := splitNewlines pasted
  let currentLine := st.lines.getD lineIndex []
  let beforeCursor := currentLine.take cursorPos
  let afterCursor := currentLine.drop cursorPos
  let firstLine := beforeCursor ++ pastedLines.headD []
  let lastLine := pastedLines.getLastD [] ++ afterCursor
  let middleLines := (pastedLines.drop 1).dropLast
  let newLines :=
    if pastedLines.length = 1 then
      st.lines.take lineIndex ++ [firstLine ++ afterCursor] ++ st.lines.drop (lineIndex + 1)
    else
      st.lines.take lineIndex ++ [firstLine] ++ middleLines ++ [lastLine] ++
        st.lines.drop (lineIndex + 1)
  let numNewLines := pastedLines.length - 1
  let newChords :=
    if 0 < numNewLines then
      st.chords.map (fun c =>
        if lineIndex < c.lineIndex then { c with lineIndex := c.lineIndex + numNewLines }
        else c)
    else st.chords
  { lines := newLines, chords := newChords }

/-! ## Sections (data/sections, App) -/

/-- Check whether a line is a section header: its trimmed content matches
the anchored pattern of a bracketed, nonempty, bracket-free name. -/
def isSectionLine (line : Str) : Bool :=
  match line.dropWhile Char.isWhitespace |>.reverse.dropWhile Char.isWhitespace |>.reverse with
  | '[' :: rest =>
    match rest.reverse with
    | ']' :: inner => !inner.isEmpty && inner.all (fun c => c ≠ ']')
    | _ => false
  | _ => false

/-- Line range of a section, translated from the source function
getSectionRange: from the header to just before the next header, or to the
last line when no later header exists. -/
def getSectionRange (lines : List Str) (sectionLineIndex : Nat) : Nat × Nat :=
  match (lines.drop (sectionLineIndex + 1)).findIdx? isSectionLine with
  | some k => (sectionLineIndex, sectionLineIndex + k)
  | none => (sectionLineIndex, lines.length - 1)

/-- Section-delete edit from handleDeleteSection: removes the section's
lines, removes the chords inside the range, and shifts chords past the
range up by the removed line count. -/
def deleteSection (st : ColumnState) (sectionLineIndex : Nat) : ColumnState :=
  let r := getSectionRange st.lines sectionLineIndex
  let startLine := r.1
  let endLine := r.2
  let linesToRemove := endLine - startLine + 1
  { lines := st.lines.take startLine ++ st.lines.drop (startLine + linesToRemove),
    chords := (st.chords.filter (fun c =>
        c.lineIndex < startLine ∨ endLine < c.lineIndex)).map (fun c =>
      if endLine < c.lineIndex then { c with lineIndex := c.lineIndex - linesToRemove }
      else c) }

/-- Section-copy operation from handleCopySection: captures the content
lines after the header and their chords with line indices rebased to the
first content line. -/
def copySection (st : ColumnState) (sectionLineIndex : Nat) : List Str × List PlacedChord :=
  let r := getSectionRange st.lines sectionLineIndex
  let startLine := r.1
  let endLine := r.2
  let contentStartLine := startLine + 1
  if endLine < contentStartLine then ([], [])
  else
    let sectionLines := (st.lines.drop contentStartLine).take (endLine + 1 - contentStartLine)
    let sectionChords := (st.chords.filter (fun c =>
        contentStartLine ≤ c.lineIndex ∧ c.lineIndex ≤ endLine)).map (fun c =>
      { c with lineIndex := c.lineIndex - contentStartLine })
    (sectionLines, sectionChords)

/-- Section-paste operation from handlePasteSection: inserts the captured
lines after the target line, shifts chords at or past the insertion point,
and appends the captured chords with fresh identifiers and rebased line
indices. The nondeterministic identifier generator of the source is made
explicit as a supply indexed by the chord's position in the captured list. -/
def pasteSection (st : ColumnState) (copied : List Str × List PlacedChord)
    (targetLineIndex : Nat) (freshId : Nat → Str) : ColumnState :=
  let insertIndex := targetLineIndex + 1
  let newLines := st.lines.take insertIndex ++ copied.1 ++ st.lines.drop insertIndex
  let shiftAmount := copied.1.length
  let shiftedChords := st.chords.map (fun c =>
    if insertIndex ≤ c.lineIndex then { c with lineIndex := c.lineIndex + shiftAmount }
    else c)
  let newSectionChords := copied.2.mapIdx (fun k c =>
    { c with id := freshId k, lineIndex := c.lineIndex + insertIndex })
  { lines := newLines, chords := shiftedChords ++ newSectionChords }

/-! ## Drag session (chord fine-offset dragging in LyricsEditor) -/

/-- Context of an active chord drag: captured start state and the layout
quantities the move handler reads. Pixel quantities are modelled as
rationals. -/
structure DragCtx where
  rtl : Bool
  startX : ℚ
  startOffset : ℚ
  chordCharIndex : Nat
  charWidth : ℚ
  columnWidth : ℚ
deriving DecidableEq, Repr

/-- The padding constant of the drag move handlers. -/
def dragPadding : ℚ := 5

/-- Offset computed by one pointer-move step, translated from the source
handleMouseMove: delta from the drag start, negated under RTL, added to the
start offset and clamped to the column with padding. -/
def dragMoveOffset (ctx : DragCtx) (currentX : ℚ) : ℚ :=
  let deltaX := currentX - ctx.startX
  let adjustedDelta := if ctx.rtl then -deltaX else deltaX
  let newOffset := ctx.startOffset + adjustedDelta
  let charPosition : ℚ := ctx.chordCharIndex * ctx.charWidth
  let minOffset := -charPosition - dragPadding
  let maxOffset := ctx.columnWidth - charPosition + dragPadding
  max minOffset (min maxOffset newOffset)

/-- The dragged chord's fine offset after a sequence of pointer moves; each
move recomputes the offset from the captured start offset. -/
def dragOffsetAfter (ctx : DragCtx) (moves : List ℚ) : ℚ :=
  moves.foldl (fun _ x => dragMoveOffset ctx x) ctx.startOffset

/-! ## Bar-chart measures and hold inference (BarChartEditor) -/

/-- A beat of a measure: an optional chord symbol and a hold flag. -/
structure Beat where
  chord : Option Str
  isHold : Bool
deriving DecidableEq, Repr

/-- JavaScript truthiness of the chord field (null and the empty string are
falsy), as tested by the hold-recompute loop. -/
def chordTruthy : Option Str → Bool
  | none => false
  | some s => !s.isEmpty

/-- The hold-marker loop of updateMeasureBeat, carrying the loop index and
the last index at which a chord was seen (initially -1). -/
def holdLoop : List Beat → Nat → Int → List Beat
  | [], _, _ => []
  | b :: rest, i, lastChordIndex =>
    if chordTruthy b.chord then
      { b with isHold := false } :: holdLoop rest (i + 1) (Int.ofNat i)
    else
      { b with isHold := decide (0 ≤ lastChordIndex) } :: holdLoop rest (i + 1) lastChordIndex

/-- Beat update from updateMeasureBeat: writes the chord into the addressed
beat with isHold cleared, then recomputes every hold marker. -/
def updateMeasureBeat (beats : List Beat) (beatPosition : Nat)
    (chordSymbol : Option Str) : List Beat :=
  let beatIndex := beatPosition - 1
  let written := beats.set beatIndex
    { (beats.getD beatIndex ⟨none, false⟩) with chord := chordSymbol, isHold := false }
  holdLoop written 0 (-1)

/-! ## Concrete example data used by the scenario facts -/

/-- The example chord of the specification scenario: a G chord anchored at
line 1, character 0. -/
def demoChordG : PlacedChord :=
  ⟨['c', '1'], ['G'], ['G', ' ', 'M', 'a', 'j', 'o', 'r'], 1, 0, 0⟩

/-- The example column of the specification scenario. -/
def demoState : ColumnState :=
  ⟨[['H', 'e', 'l', 'l', 'o'], ['w', 'o', 'r', 'l', 'd']], [demoChordG]⟩

/-! ## General helper lemmas -/

/-- Mapping over a filtered list is the filterMap that keeps exactly the
filtered elements, transformed. -/
theorem filter_map_eq_filterMap (l : List α) (p : α → Bool) (f : α → β) :
    (l.filter p).map f = l.filterMap (fun a => if p a then some (f a) else none) := by
  induction l with
  | nil => rfl
  | cons a l ih =>
    by_cases h : p a <;> simp [List.filter_cons, List.filterMap_cons, h, ih]

/-- Two chords agreeing on every field except possibly the line index. -/
def agreesExceptLine (c c' : PlacedChord) : Prop :=
  c'.id = c.id ∧ c'.chordSymbol = c.chordSymbol ∧ c'.chordName = c.chordName ∧
    c'.charIndex = c.charIndex ∧ c'.offsetX = c.offsetX

instance : DecidablePred (fun p : PlacedChord × PlacedChord => agreesExceptLine p.1 p.2) :=
  fun _ => by unfold agreesExceptLine; infer_instance

/-! ## C1: Enter-key line insertion -/

/-- Claim C1 (counterexample): on lines ["Hello", "world"] with the chord at
line 1, the Enter edit on line 0 does not produce the lines
["He", "llo", "world"] the claim predicts; it inserts an empty line, giving
["Hello", "", "world"], while the chord does move to line 2. -/
theorem c1_counterexample :
    (enterKeyEdit demoState 0).lines ≠
      [['H', 'e'], ['l', 'l', 'o'], ['w', 'o', 'r', 'l', 'd']] ∧
    (enterKeyEdit demoState 0).lines =
      [['H', 'e', 'l', 'l', 'o'], [], ['w', 'o', 'r', 'l', 'd']] ∧
    (enterKeyEdit demoState 0).chords = [{ demoChordG with lineIndex := 2 }] := by
  decide

/-- Claim C1 (amended): the Enter edit on line i inserts a single empty line
at index i+1, leaving every line's content unchanged, and shifts lineIndex
by +1 for exactly those chords whose lineIndex is strictly greater than i;
on the example state the lines become ["Hello", "", "world"] and the chord
ends at lineIndex 2 with its other fields unchanged. -/
theorem c1_enter_inserts_blank_line (st : ColumnState) (lineIndex : Nat) :
    (enterKeyEdit st lineIndex).lines =
      st.lines.take (lineIndex + 1) ++ [[]] ++ st.lines.drop (lineIndex + 1) ∧
    (enterKeyEdit st lineIndex).chords = st.chords.map (fun c =>
      if c.lineIndex ≤ lineIndex then c else { c with lineIndex := c.lineIndex + 1 }) ∧
    enterKeyEdit demoState 0 =
      ⟨[['H', 'e', 'l', 'l', 'o'], [], ['w', 'o', 'r', 'l', 'd']],
       [{ demoChordG with lineIndex := 2 }]⟩ := by
  refine ⟨rfl, ?_, by decide⟩
  apply List.map_congr_left
  intro c _
  rcases Nat.lt_or_ge lineIndex c.lineIndex with h | h
  · simp [h, Nat.not_le.mpr h]
  · simp [Nat.not_lt.mpr h, h]

/-! ## C5: Backspace merge of an empty line -/

/-- Claim C5: the merge-up edit applies exactly when the line is empty and
not the first; then it removes that line, removes exactly the chords on it,
shifts by -1 exactly the chords on strictly later lines, and keeps chords
on earlier lines unchanged. -/
theorem c5_merge_line_up (st : ColumnState) (lineIndex : Nat) :
    ((backspaceKeyEdit st lineIndex).isSome ↔
      st.lines.getD lineIndex [] = [] ∧ 0 < lineIndex) ∧
    (st.lines.getD lineIndex [] = [] → 0 < lineIndex →
      backspaceKeyEdit st lineIndex = some
        { lines := st.lines.eraseIdx lineIndex,
          chords := st.chords.filterMap (fun c =>
            if c.lineIndex = lineIndex then none
            else if lineIndex < c.lineIndex then
              some { c with lineIndex := c.lineIndex - 1 }
            else some c) }) := by
  constructor
  · constructor
    · intro hs
      by_cases h : st.lines.getD lineIndex [] = [] ∧ 0 < lineIndex
      · exact h
      · unfold backspaceKeyEdit at hs
        rw [if_neg h] at hs
        simp at hs
    · intro h
      unfold backspaceKeyEdit
      rw [if_pos h]
      simp
  · intro h1 h2
    unfold backspaceKeyEdit
    rw [if_pos ⟨h1, h2⟩, Option.some_inj]
    refine congrArg (fun cs => ColumnState.mk (st.lines.eraseIdx lineIndex) cs) ?_
    rw [filter_map_eq_filterMap]
    apply List.filterMap_congr
    intro c _
    by_cases he : c.lineIndex = lineIndex
    · simp [he]
    · rcases Nat.lt_or_ge lineIndex c.lineIndex with h | h
      · simp [he, h]
      · simp [he, h, Nat.not_lt.mpr h]

/-- Witness for C5 at a concrete state: line 1 of ["a", "", "b"] is empty. -/
theorem c5_witness :
    ([['a'], [], ['b']] : List Str).getD 1 [] = [] ∧ 0 < 1 ∧
    backspaceKeyEdit ⟨[['a'], [], ['b']], []⟩ 1 = some ⟨[['a'], ['b']], []⟩ := by
  refine ⟨by decide, by decide, ?_⟩
  have h := (c5_merge_line_up ⟨[['a'], [], ['b']], []⟩ 1).2 (by decide) (by decide)
  simpa using h

/-! ## C8: drag clamping -/

/-- Claim C8: after every pointer-move step the dragged chord's offset is the
start offset plus the pointer delta, negated under RTL, clamped to the
padded column range; in particular it is never below the lower clamp bound,
however large the negative delta. -/
theorem c8_drag_clamp (ctx : DragCtx) (moves : List ℚ) (x : ℚ) :
    dragOffsetAfter ctx (moves ++ [x]) =
      max (-((ctx.chordCharIndex : ℚ) * ctx.charWidth) - dragPadding)
        (min (ctx.columnWidth - (ctx.chordCharIndex : ℚ) * ctx.charWidth + dragPadding)
          (ctx.startOffset + (if ctx.rtl then -(x - ctx.startX) else x - ctx.startX))) ∧
    -((ctx.chordCharIndex : ℚ) * ctx.charWidth) - dragPadding ≤
      dragOffsetAfter ctx (moves ++ [x]) := by
  have h : dragOffsetAfter ctx (moves ++ [x]) = dragMoveOffset ctx x := by
    simp [dragOffsetAfter, List.foldl_append]
  refine ⟨by rw [h]; rfl, ?_⟩
  rw [h]
  exact le_max_left _ _

/-! ## C9: frame effect of line-structure edits on surviving chords -/

/-- Claim C9: the four line-structure edits (Enter insert, Backspace merge,
multi-line paste, section delete) leave every surviving chord's id, symbol,
name, charIndex and offsetX unchanged, altering at most its lineIndex. -/
theorem c9_frame_effect (st : ColumnState) (lineIndex cursorPos : Nat) (pasted : Str) :
    (∀ c ∈ st.chords, ∃ c' ∈ (enterKeyEdit st lineIndex).chords, agreesExceptLine c c') ∧
    (∀ r, backspaceKeyEdit st lineIndex = some r →
      ∀ c ∈ st.chords, c.lineIndex ≠ lineIndex →
        ∃ c' ∈ r.chords, agreesExceptLine c c') ∧
    (∀ c ∈ st.chords,
      ∃ c' ∈ (pasteMultiline st lineIndex cursorPos pasted).chords, agreesExceptLine c c') ∧
    (∀ c ∈ st.chords,
      c.lineIndex < (getSectionRange st.lines lineIndex).1 ∨
        (getSectionRange st.lines lineIndex).2 < c.lineIndex →
      ∃ c' ∈ (deleteSection st lineIndex).chords, agreesExceptLine c c') := by
  refine ⟨?_, ?_, ?_, ?_⟩
  · intro c hc
    refine ⟨_, List.mem_map_of_mem _ hc, ?_⟩
    dsimp only
    split <;> exact ⟨rfl, rfl, rfl, rfl, rfl⟩
  · intro r hr c hc hne
    unfold backspaceKeyEdit at hr
    split at hr
    · cases Option.some_inj.mp hr
      refine ⟨_, List.mem_map_of_mem _ (List.mem_filter.mpr ⟨hc, by simpa using hne⟩), ?_⟩
      dsimp only
      split <;> exact ⟨rfl, rfl, rfl, rfl, rfl⟩
    · cases hr
  · intro c hc
    unfold pasteMultiline
    dsimp only
    split
    · refine ⟨_, List.mem_map_of_mem _ hc, ?_⟩
      dsimp only
      split <;> exact ⟨rfl, rfl, rfl, rfl, rfl⟩
    · exact ⟨c, hc, rfl, rfl, rfl, rfl, rfl⟩
  · intro c hc hkeep
    unfold deleteSection
    refine ⟨_, List.mem_map_of_mem _ (List.mem_filter.mpr ⟨hc, by simpa using hkeep⟩), ?_⟩
    dsimp only
    split <;> exact ⟨rfl, rfl, rfl, rfl, rfl⟩

/-- Witness for C9: the Enter edit on the example state preserves the
example chord's non-positional fields. -/
theorem c9_witness :
    demoChordG ∈ demoState.chords ∧
    ∃ c' ∈ (enterKeyEdit demoState 0).chords, agreesExceptLine demoChordG c' := by
  have h := (c9_frame_effect demoState 0 0 []).1 demoChordG (by decide)
  exact ⟨by decide, h⟩

/-! ## C3: hold inference for bar-chart measures -/

/-- Length preservation of the hold-marker loop. -/
theorem holdLoop_length : ∀ (bs : List Beat) (i : Nat) (last : Int),
    (holdLoop bs i last).length = bs.length
  | [], _, _ => rfl
  | _ :: rest, i, last => by
    unfold holdLoop
    split <;> simpa using holdLoop_length rest (i + 1) _

/-- The hold-marker loop never changes a beat's chord. -/
theorem holdLoop_chord : ∀ (bs : List Beat) (i : Nat) (last : Int) (j : Nat),
    ((holdLoop bs i last).getD j ⟨none, false⟩).chord = (bs.getD j ⟨none, false⟩).chord
  | [], _, _, _ => rfl
  | _ :: _, _, _, 0 => by
    unfold holdLoop
    split <;> rfl
  | _ :: rest, i, last, j + 1 => by
    unfold holdLoop
    split <;> simpa using holdLoop_chord rest (i + 1) _ j

/-- A nonnegativity fact used when the loop records a chord position. -/
theorem decide_ofNat_nonneg (i : Nat) : decide ((0 : Int) ≤ Int.ofNat i) = true :=
  decide_eq_true (Int.ofNat_nonneg i)

/-- The hold flag computed by the loop: false on chord-bearing beats, and on
chordless beats exactly the disjunction of the carried last-chord sign and
the presence of an earlier chord-bearing beat. -/
theorem holdLoop_isHold : ∀ (bs : List Beat) (i : Nat) (last : Int) (j : Nat),
    j < bs.length →
    ((holdLoop bs i last).getD j ⟨none, false⟩).isHold =
      (!chordTruthy (bs.getD j ⟨none, false⟩).chord &&
        (decide (0 ≤ last) || (bs.take j).any (fun b => chordTruthy b.chord)))
  | b :: _, i, last, 0, _ => by
    unfold holdLoop
    by_cases h : chordTruthy b.chord <;> simp [h]
  | b :: rest, i, last, j + 1, hj => by
    unfold holdLoop
    by_cases h : chordTruthy b.chord
    · have ih := holdLoop_isHold rest (i + 1) (Int.ofNat i) j (by simpa using hj)
      simp only [List.getD_eq_getElem?_getD, decide_ofNat_nonneg, Bool.true_or,
        Bool.and_true, Int.ofNat_eq_coe] at ih
      simp [h, ih]
    · have ih := holdLoop_isHold rest (i + 1) last j (by simpa using hj)
      simp only [List.getD_eq_getElem?_getD] at ih
      simp [h, ih]

/-- Existence form of any over a take prefix, phrased with default-valued
indexing. -/
theorem any_take_iff (d : α) (p : α → Bool) :
    ∀ (l : List α) (j : Nat),
      ((l.take j).any p = true) ↔ ∃ i, i < j ∧ i < l.length ∧ p (l.getD i d) = true
  | [], j => by simp
  | a :: l', 0 => by simp
  | a :: l', j + 1 => by
    simp only [List.take_succ_cons, List.any_cons, Bool.or_eq_true,
      any_take_iff d p l' j]
    constructor
    · rintro (h | ⟨i, h1, h2, h3⟩)
      · exact ⟨0, Nat.succ_pos _, Nat.succ_pos _, by simpa using h⟩
      · exact ⟨i + 1, Nat.succ_lt_succ h1, Nat.succ_lt_succ h2, by simpa using h3⟩
    · rintro ⟨i, h1, h2, h3⟩
      cases i with
      | zero => exact Or.inl (by simpa using h3)
      | succ i =>
        exact Or.inr ⟨i, Nat.lt_of_succ_lt_succ h1, Nat.lt_of_succ_lt_succ h2,
          by simpa using h3⟩

/-- Truthiness agrees with presence for chords that are not the empty
string. -/
theorem chordTruthy_eq_isSome (o : Option Str) (h : o ≠ some []) :
    chordTruthy o = o.isSome := by
  cases o with
  | none => rfl
  | some s =>
    have hs : s ≠ [] := by
      intro he
      exact h (by rw [he])
    simp [chordTruthy, List.isEmpty_iff, hs]

/-- Claim C3: after any single-beat set or clear, every chord-bearing beat
has isHold false, every chordless beat holds exactly when an earlier beat
bears a chord, the first beat never holds, clearing the only chord of
[G,-,-,-] leaves no holds, and setting Am on beat 3 of [G,-,-,-] yields
holds [false, true, false, true]. -/
theorem c3_hold_inference (beats : List Beat) (beatPosition : Nat)
    (chordSymbol : Option Str) (hlen : beats.length = 4)
    (hwf : ∀ b ∈ beats, b.chord ≠ some []) (hsym : chordSymbol ≠ some []) :
    (updateMeasureBeat beats beatPosition chordSymbol).length = 4 ∧
    (∀ j, j < 4 →
      (((updateMeasureBeat beats beatPosition chordSymbol).getD j ⟨none, false⟩).chord.isSome →
        ((updateMeasureBeat beats beatPosition chordSymbol).getD j ⟨none, false⟩).isHold
          = false) ∧
      (((updateMeasureBeat beats beatPosition chordSymbol).getD j ⟨none, false⟩).chord = none →
        (((updateMeasureBeat beats beatPosition chordSymbol).getD j ⟨none, false⟩).isHold
            = true ↔
          ∃ i, i < j ∧
            ((updateMeasureBeat beats beatPosition chordSymbol).getD i
              ⟨none, false⟩).chord.isSome))) ∧
    ((updateMeasureBeat beats beatPosition chordSymbol).getD 0 ⟨none, false⟩).isHold
      = false ∧
    updateMeasureBeat
        [⟨some ['G'], false⟩, ⟨none, true⟩, ⟨none, true⟩, ⟨none, true⟩] 1 none =
      [⟨none, false⟩, ⟨none, false⟩, ⟨none, false⟩, ⟨none, false⟩] ∧
    updateMeasureBeat
        [⟨some ['G'], false⟩, ⟨none, true⟩, ⟨none, true⟩, ⟨none, true⟩] 3
        (some ['A', 'm']) =
      [⟨some ['G'], false⟩, ⟨none, true⟩, ⟨some ['A', 'm'], false⟩, ⟨none, true⟩] := by
  have hdef : updateMeasureBeat beats beatPosition chordSymbol =
      holdLoop (beats.set (beatPosition - 1)
        { (beats.getD (beatPosition - 1) ⟨none, false⟩) with
            chord := chordSymbol, isHold := false }) 0 (-1) := rfl
  set written := beats.set (beatPosition - 1)
    { (beats.getD (beatPosition - 1) ⟨none, false⟩) with
        chord := chordSymbol, isHold := false } with hwdef
  have hwlen : written.length = 4 := by
    rw [hwdef, List.length_set, hlen]
  have hwwf : ∀ j, (written.getD j ⟨none, false⟩).chord ≠ some [] := by
    intro j
    by_cases h : j < written.length
    · have hmem : written.getD j ⟨none, false⟩ ∈ written := by
        rw [List.getD_eq_getElem?_getD, List.getElem?_eq_getElem h]
        exact List.getElem_mem h
      rcases List.mem_or_eq_of_mem_set (hwdef ▸ hmem) with hmem' | he
      · exact hwf _ hmem'
      · rw [he]
        exact hsym
    · rw [List.getD_eq_getElem?_getD, List.getElem?_eq_none (by omega)]
      simp
  have htr : ∀ j, chordTruthy (written.getD j ⟨none, false⟩).chord =
      (written.getD j ⟨none, false⟩).chord.isSome := fun j =>
    chordTruthy_eq_isSome _ (hwwf j)
  have hchord : ∀ j, ((updateMeasureBeat beats beatPosition chordSymbol).getD j
      ⟨none, false⟩).chord = (written.getD j ⟨none, false⟩).chord := by
    intro j
    rw [hdef]
    exact holdLoop_chord written 0 (-1) j
  have hhold : ∀ j, j < 4 →
      ((updateMeasureBeat beats beatPosition chordSymbol).getD j ⟨none, false⟩).isHold =
        (!chordTruthy (written.getD j ⟨none, false⟩).chord &&
          (written.take j).any (fun b => chordTruthy b.chord)) := by
    intro j hj
    rw [hdef, holdLoop_isHold written 0 (-1) j (by omega)]
    simp
  refine ⟨by rw [hdef, holdLoop_length, hwlen], ?_, ?_, by decide, by decide⟩
  · intro j hj
    constructor
    · intro hs
      rw [hchord j] at hs
      rw [hhold j hj, htr j, hs]
      simp
    · intro hn
      rw [hchord j] at hn
      rw [hhold j hj, htr j, hn]
      simp only [Option.isSome_none, Bool.not_false, Bool.true_and]
      rw [any_take_iff ⟨none, false⟩ _ written j]
      constructor
      · rintro ⟨i, h1, h2, h3⟩
        refine ⟨i, h1, ?_⟩
        rw [hchord i, ← htr i]
        exact h3
      · rintro ⟨i, h1, h2⟩
        refine ⟨i, h1, by omega, ?_⟩
        rw [htr i, ← hchord i]
        exact h2
  · rw [hhold 0 (by omega)]
    simp

/-- Witness for C3: clearing beat 1 of [G, -, -, -] leaves no chords and no
holds. -/
theorem c3_witness :
    ([(⟨some ['G'], false⟩ : Beat), ⟨none, true⟩, ⟨none, true⟩, ⟨none, true⟩]).length = 4 ∧
    updateMeasureBeat
        [⟨some ['G'], false⟩, ⟨none, true⟩, ⟨none, true⟩, ⟨none, true⟩] 1 none =
      [⟨none, false⟩, ⟨none, false⟩, ⟨none, false⟩, ⟨none, false⟩] :=
  ⟨by decide,
    (c3_hold_inference
      [⟨some ['G'], false⟩, ⟨none, true⟩, ⟨none, true⟩, ⟨none, true⟩] 1 none
      (by decide) (by decide) (by decide)).2.2.2.1⟩

/-! ## C4: multi-line paste -/

/-- Splitting on newlines always yields at least one segment. -/
theorem splitNewlines_ne_nil (s : Str) : splitNewlines s ≠ [] := by
  induction s using splitNewlines.induct <;>
    simp [splitNewlines] <;> (try split) <;> simp_all [splitNewlines]

/-- A string containing a newline splits into at least two segments. -/
theorem two_le_splitNewlines_length (s : Str) (h : containsNewline s = true) :
    2 ≤ (splitNewlines s).length := by
  induction s using splitNewlines.induct with
  | case1 => simp [containsNewline] at h
  | case2 rest ih =>
    have := List.length_pos.mpr (splitNewlines_ne_nil rest)
    simp [splitNewlines]
    omega
  | case3 rest h1 ih =>
    have := List.length_pos.mpr (splitNewlines_ne_nil rest)
    simp [splitNewlines]
    omega
  | case4 rest ih =>
    have := List.length_pos.mpr (splitNewlines_ne_nil rest)
    simp [splitNewlines]
    omega
  | case5 c rest h1 h2 h3 hnil ih => exact absurd hnil (splitNewlines_ne_nil rest)
  | case6 c rest h1 h2 h3 seg segs heq ih =>
    have hrest : containsNewline rest = true := by
      simp only [containsNewline, List.contains_cons, Bool.or_eq_true, beq_iff_eq] at h ⊢
      rcases h with (h | h) | (h | h)
      · exact absurd h.symm h3
      · exact Or.inl h
      · exact absurd h.symm h2
      · exact Or.inr h
    have hlen := ih hrest
    rw [heq] at hlen
    simp [splitNewlines, heq] at hlen ⊢
    omega

/-- Claim C4: pasting multi-line text into a valid line splits the line at
the cursor into before and after fragments with the pasted lines spliced in
between, grows the line count by exactly one less than the number of pasted
lines, and shifts by that amount exactly the chords on strictly later
lines. -/
theorem c4_paste_multiline (st : ColumnState) (lineIndex cursorPos : Nat) (pasted : Str)
    (hnl : containsNewline pasted = true) (hlt : lineIndex < st.lines.length) :
    (pasteMultiline st lineIndex cursorPos pasted).lines.length + 1 =
      st.lines.length + (splitNewlines pasted).length ∧
    (pasteMultiline st lineIndex cursorPos pasted).lines =
      st.lines.take lineIndex ++
        [(st.lines.getD lineIndex []).take cursorPos ++ (splitNewlines pasted).headD []] ++
        ((splitNewlines pasted).drop 1).dropLast ++
        [(splitNewlines pasted).getLastD [] ++ (st.lines.getD lineIndex []).drop cursorPos] ++
        st.lines.drop (lineIndex + 1) ∧
    (pasteMultiline st lineIndex cursorPos pasted).chords = st.chords.map (fun c =>
      if c.lineIndex ≤ lineIndex then c
      else { c with lineIndex := c.lineIndex + ((splitNewlines pasted).length - 1) }) := by
  have hp := two_le_splitNewlines_length pasted hnl
  have hne1 : ¬((splitNewlines pasted).length = 1) := by omega
  have hpos : 0 < (splitNewlines pasted).length - 1 := by omega
  refine ⟨?_, ?_, ?_⟩
  · simp only [pasteMultiline, if_neg hne1]
    simp [List.length_append, List.length_take, List.length_dropLast, List.length_drop]
    omega
  · simp only [pasteMultiline, if_neg hne1]
  · simp only [pasteMultiline, if_neg hne1, if_pos hpos]
    apply List.map_congr_left
    intro c _
    rcases Nat.lt_or_ge lineIndex c.lineIndex with h | h
    · simp [h, Nat.not_le.mpr h]
    · simp [Nat.not_lt.mpr h, h]

/-- Witness for C4: pasting "X\nY\nZ" into line 0 of the example state. -/
theorem c4_witness :
    containsNewline ['X', '\n', 'Y', '\n', 'Z'] = true ∧ 0 < demoState.lines.length ∧
    (pasteMultiline demoState 0 2 ['X', '\n', 'Y', '\n', 'Z']).lines.length + 1 =
      demoState.lines.length + (splitNewlines ['X', '\n', 'Y', '\n', 'Z']).length :=
  ⟨by decide, by decide,
    (c4_paste_multiline demoState 0 2 ['X', '\n', 'Y', '\n', 'Z']
      (by decide) (by decide)).1⟩

/-! ## C6: section ranges and section deletion -/

/-- Characterization of getSectionRange: the range starts at the header,
ends inside the document, contains no further header after the start, and
stops immediately before the next header or at the last line. -/
theorem getSectionRange_spec (lines : List Str) (i : Nat) (hlt : i < lines.length) :
    (getSectionRange lines i).1 = i ∧
    i ≤ (getSectionRange lines i).2 ∧
    (getSectionRange lines i).2 < lines.length ∧
    (∀ j, i < j → j ≤ (getSectionRange lines i).2 →
      isSectionLine (lines.getD j []) = false) ∧
    ((getSectionRange lines i).2 + 1 = lines.length ∨
      isSectionLine (lines.getD ((getSectionRange lines i).2 + 1) []) = true) := by
  cases hfind : (lines.drop (i + 1)).findIdx? isSectionLine with
  | none =>
    have hval : getSectionRange lines i = (i, lines.length - 1) := by
      unfold getSectionRange
      rw [hfind]
    rw [hval]
    have hall := List.findIdx?_eq_none_iff.mp hfind
    refine ⟨rfl, by omega, by omega, ?_, Or.inl (by omega)⟩
    intro j hj1 hj2
    simp only at hj2
    have hj3 : j < lines.length := by omega
    have hd : j - (i + 1) < (lines.drop (i + 1)).length := by
      rw [List.length_drop]
      omega
    have he : lines.getD j [] = (lines.drop (i + 1))[j - (i + 1)] := by
      rw [List.getD_eq_getElem?_getD, List.getElem?_eq_getElem hj3, Option.getD_some,
        List.getElem_drop]
      exact getElem_congr (by omega)
    rw [he]
    exact hall _ (List.getElem_mem hd)
  | some k =>
    have hval : getSectionRange lines i = (i, i + k) := by
      unfold getSectionRange
      rw [hfind]
    rw [hval]
    obtain ⟨hk, hpk, hbefore⟩ := List.findIdx?_eq_some_iff_getElem.mp hfind
    have hklen : k < lines.length - (i + 1) := by
      simpa [List.length_drop] using hk
    refine ⟨rfl, by omega, by omega, ?_, Or.inr ?_⟩
    · intro j hj1 hj2
      simp only at hj2
      have hj3 : j < lines.length := by omega
      have hd : j - (i + 1) < (lines.drop (i + 1)).length := by
        rw [List.length_drop]
        omega
      have he : lines.getD j [] = (lines.drop (i + 1))[j - (i + 1)] := by
        rw [List.getD_eq_getElem?_getD, List.getElem?_eq_getElem hj3, Option.getD_some,
          List.getElem_drop]
        exact getElem_congr (by omega)
      rw [he]
      have := hbefore (j - (i + 1)) (by omega)
      simpa using this
    · have hj3 : i + k + 1 < lines.length := by omega
      have he : lines.getD (i + k + 1) [] = (lines.drop (i + 1))[k] := by
        rw [List.getD_eq_getElem?_getD, List.getElem?_eq_getElem hj3, Option.getD_some,
          List.getElem_drop]
        exact getElem_congr (by omega)
      rw [he]
      exact hpk

/-- Claim C6: deleting the section headed at line i removes exactly the
lines of the range computed by getSectionRange, whose end E is the line
just before the next header or the last line; chords inside [i, E] are
removed, chords past E shift by -(E - i + 1), and chords before i are
unchanged. -/
theorem c6_delete_section (st : ColumnState) (i : Nat) (hlt : i < st.lines.length) :
    (getSectionRange st.lines i).1 = i ∧
    i ≤ (getSectionRange st.lines i).2 ∧
    (getSectionRange st.lines i).2 < st.lines.length ∧
    (∀ j, i < j → j ≤ (getSectionRange st.lines i).2 →
      isSectionLine (st.lines.getD j []) = false) ∧
    ((getSectionRange st.lines i).2 + 1 = st.lines.length ∨
      isSectionLine (st.lines.getD ((getSectionRange st.lines i).2 + 1) []) = true) ∧
    (deleteSection st i).lines =
      st.lines.take i ++ st.lines.drop ((getSectionRange st.lines i).2 + 1) ∧
    (deleteSection st i).chords = st.chords.filterMap (fun c =>
      if i ≤ c.lineIndex ∧ c.lineIndex ≤ (getSectionRange st.lines i).2 then none
      else if (getSectionRange st.lines i).2 < c.lineIndex then
        some { c with lineIndex :=
          c.lineIndex - ((getSectionRange st.lines i).2 - i + 1) }
      else some c) := by
  obtain ⟨hs, hie, hel, hmid, hnext⟩ := getSectionRange_spec st.lines i hlt
  refine ⟨hs, hie, hel, hmid, hnext, ?_, ?_⟩
  · simp only [deleteSection]
    rw [hs]
    have : i + ((getSectionRange st.lines i).2 - i + 1) =
        (getSectionRange st.lines i).2 + 1 := by omega
    rw [this]
  · simp only [deleteSection]
    rw [filter_map_eq_filterMap]
    apply List.filterMap_congr
    intro c _
    rw [hs]
    by_cases h4 : i ≤ c.lineIndex ∧ c.lineIndex ≤ (getSectionRange st.lines i).2
    · have hko : ¬(c.lineIndex < i ∨ (getSectionRange st.lines i).2 < c.lineIndex) := by
        omega
      simp [h4, hko]
    · rw [if_neg h4]
      by_cases h2 : (getSectionRange st.lines i).2 < c.lineIndex
      · have hok : c.lineIndex < i ∨ (getSectionRange st.lines i).2 < c.lineIndex :=
          Or.inr h2
        simp [hok, h2]
      · have h3 : c.lineIndex < i := by omega
        have hok : c.lineIndex < i ∨ (getSectionRange st.lines i).2 < c.lineIndex :=
          Or.inl h3
        simp [hok, h2, h3]

/-- Witness for C6: deleting the first section of a concrete four-line
document. -/
theorem c6_witness :
    0 < ([['[', 'A', ']'], ['x'], ['[', 'B', ']'], ['z']] : List Str).length ∧
    (deleteSection ⟨[['[', 'A', ']'], ['x'], ['[', 'B', ']'], ['z']], []⟩ 0).lines =
      ([['[', 'A', ']'], ['x'], ['[', 'B', ']'], ['z']] : List Str).take 0 ++
        ([['[', 'A', ']'], ['x'], ['[', 'B', ']'], ['z']] : List Str).drop
          ((getSectionRange [['[', 'A', ']'], ['x'], ['[', 'B', ']'], ['z']] 0).2 + 1) :=
  ⟨by decide,
    (c6_delete_section ⟨[['[', 'A', ']'], ['x'], ['[', 'B', ']'], ['z']], []⟩ 0
      (by decide)).2.2.2.2.2.1⟩

/-! ## C7: section copy and paste round trip -/

/-- Closed form of copySection: the captured lines are the content slice and
the captured chords are the rebased chords of the content range. -/
theorem copySection_eq (st : ColumnState) (i : Nat) (hlt : i < st.lines.length) :
    copySection st i =
      ((st.lines.drop (i + 1)).take ((getSectionRange st.lines i).2 - i),
       (st.chords.filter (fun c =>
          i + 1 ≤ c.lineIndex ∧ c.lineIndex ≤ (getSectionRange st.lines i).2)).map
         (fun c => { c with lineIndex := c.lineIndex - (i + 1) })) := by
  obtain ⟨hs, hie, hel, _, _⟩ := getSectionRange_spec st.lines i hlt
  simp only [copySection]
  rw [hs]
  by_cases hcmp : (getSectionRange st.lines i).2 < i + 1
  · have heq : (getSectionRange st.lines i).2 = i := by omega
    rw [if_pos hcmp]
    have h1 : (st.lines.drop (i + 1)).take ((getSectionRange st.lines i).2 - i) = [] := by
      rw [heq]
      simp
    have h2 : st.chords.filter (fun c =>
        i + 1 ≤ c.lineIndex ∧ c.lineIndex ≤ (getSectionRange st.lines i).2) = [] := by
      rw [List.filter_eq_nil_iff]
      intro c _
      rw [heq]
      simp only [decide_eq_true_eq, not_and]
      omega
    rw [h1, h2]
    rfl
  · rw [if_neg hcmp]
    have h1 : (getSectionRange st.lines i).2 + 1 - (i + 1) =
        (getSectionRange st.lines i).2 - i := by omega
    rw [h1]

/-- Dropping the prefix up to an insertion point just after position i
exposes the inserted block followed by the original suffix. -/
theorem drop_insert_after (L D : List Str) (i : Nat) (h : i < L.length) :
    (L.take (i + 1) ++ D ++ L.drop (i + 1)).drop (i + 1) = D ++ L.drop (i + 1) := by
  rw [List.append_assoc]
  exact List.drop_left' (by rw [List.length_take]; omega)

/-- Every element of a prefix of a header-free-up-to-m list is header
free. -/
theorem take_no_header (rest : List Str) (m : Nat)
    (h : ∀ j (hj : j < rest.length), j < m → isSectionLine (rest.get ⟨j, hj⟩) = false) :
    ∀ x ∈ rest.take m, isSectionLine x = false := by
  intro x hx
  obtain ⟨n, hn, he⟩ := List.getElem_of_mem hx
  have hn2 : n < min m rest.length := by
    simpa [List.length_take] using hn
  have hn' : n < rest.length := by omega
  rw [← he, List.getElem_take]
  exact h n hn' (by omega)

/-- The chords captured from the content range of the section at line i. -/
def sectionSrcChords (st : ColumnState) (i : Nat) : List PlacedChord :=
  st.chords.filter (fun c =>
    i + 1 ≤ c.lineIndex ∧ c.lineIndex ≤ (getSectionRange st.lines i).2)

/-- The chords appended by pasting the copied section back onto its own
header: everything past the original chord-list length. -/
def pastedChords (st : ColumnState) (i : Nat) (freshId : Nat → Str) : List PlacedChord :=
  (pasteSection st (copySection st i) i freshId).chords.drop st.chords.length

/-- Claim C7: copying the section at header line i and pasting it onto the
same header inserts the captured content right after the header, doubles
the section's content length, and appends copies of the captured chords
with identifiers drawn from the fresh supply, each keeping its source
chord's line position (hence its relative line offset), charIndex, fine
offset and symbol. -/
theorem c7_section_round_trip (st : ColumnState) (i : Nat) (freshId : Nat → Str)
    (hlt : i < st.lines.length) :
    (copySection st i).1.length = (getSectionRange st.lines i).2 - i ∧
    (pasteSection st (copySection st i) i freshId).lines =
      st.lines.take (i + 1) ++ (copySection st i).1 ++ st.lines.drop (i + 1) ∧
    getSectionRange (pasteSection st (copySection st i) i freshId).lines i =
      (i, (getSectionRange st.lines i).2 + ((getSectionRange st.lines i).2 - i)) ∧
    pastedChords st i freshId = (sectionSrcChords st i).mapIdx (fun k c =>
      { c with id := freshId k,
               lineIndex := c.lineIndex - (i + 1) + (i + 1) }) ∧
    (pastedChords st i freshId).length = (sectionSrcChords st i).length ∧
    (∀ j (hj : j < (pastedChords st i freshId).length)
        (hj' : j < (sectionSrcChords st i).length),
      ((pastedChords st i freshId).get ⟨j, hj⟩).id = freshId j ∧
      ((pastedChords st i freshId).get ⟨j, hj⟩).lineIndex =
        ((sectionSrcChords st i).get ⟨j, hj'⟩).lineIndex ∧
      ((pastedChords st i freshId).get ⟨j, hj⟩).charIndex =
        ((sectionSrcChords st i).get ⟨j, hj'⟩).charIndex ∧
      ((pastedChords st i freshId).get ⟨j, hj⟩).offsetX =
        ((sectionSrcChords st i).get ⟨j, hj'⟩).offsetX ∧
      ((pastedChords st i freshId).get ⟨j, hj⟩).chordSymbol =
        ((sectionSrcChords st i).get ⟨j, hj'⟩).chordSymbol) := by
  obtain ⟨hs, hie, hel, hmid, hnext⟩ := getSectionRange_spec st.lines i hlt
  have hcopy := copySection_eq st i hlt
  have hdlen : (st.lines.drop (i + 1)).length = st.lines.length - (i + 1) :=
    List.length_drop _ _
  have hlen1 : (copySection st i).1.length = (getSectionRange st.lines i).2 - i := by
    rw [hcopy]
    simp only [List.length_take, hdlen]
    omega
  have hchords : (pasteSection st (copySection st i) i freshId).chords =
      st.chords.map (fun c =>
        if i + 1 ≤ c.lineIndex then
          { c with lineIndex := c.lineIndex + (copySection st i).1.length }
        else c) ++
      (copySection st i).2.mapIdx (fun k c =>
        { c with id := freshId k, lineIndex := c.lineIndex + (i + 1) }) := rfl
  have hpasted : pastedChords st i freshId = (sectionSrcChords st i).mapIdx (fun k c =>
      { c with id := freshId k, lineIndex := c.lineIndex - (i + 1) + (i + 1) }) := by
    unfold pastedChords
    rw [hchords, List.drop_left' (by simp), hcopy]
    refine List.ext_getElem (by simp [sectionSrcChords]) ?_
    intro j h1 h2
    simp [List.getElem_mapIdx, List.getElem_map, sectionSrcChords]
  have hDall : ∀ x ∈ (copySection st i).1, isSectionLine x = false := by
    rw [hcopy]
    apply take_no_header
    intro j hj hjm
    have hidx : i + 1 + j < st.lines.length := by
      rw [hdlen] at hj
      omega
    have hge : (st.lines.drop (i + 1)).get ⟨j, hj⟩ = st.lines.getD (i + 1 + j) [] := by
      rw [List.get_eq_getElem, List.getElem_drop,
        List.getD_eq_getElem?_getD, List.getElem?_eq_getElem hidx, Option.getD_some]
    rw [hge]
    exact hmid (i + 1 + j) (by omega) (by omega)
  have hDnone : ((copySection st i).1.findIdx? isSectionLine) = none :=
    List.findIdx?_eq_none_iff.mpr hDall
  have hdrop := drop_insert_after st.lines (copySection st i).1 i hlt
  have hgoal3 : getSectionRange
      (st.lines.take (i + 1) ++ (copySection st i).1 ++ st.lines.drop (i + 1)) i =
      (i, (getSectionRange st.lines i).2 + ((getSectionRange st.lines i).2 - i)) := by
    cases hfind : (st.lines.drop (i + 1)).findIdx? isSectionLine with
    | some k0 =>
      have hold : getSectionRange st.lines i = (i, i + k0) := by
        unfold getSectionRange
        rw [hfind]
      have hD : (copySection st i).1.length = k0 := by
        rw [hlen1, hold]
        simp
      have hnew : getSectionRange
          (st.lines.take (i + 1) ++ (copySection st i).1 ++ st.lines.drop (i + 1)) i =
          (i, i + (k0 + (copySection st i).1.length)) := by
        unfold getSectionRange
        rw [hdrop, List.findIdx?_append, hDnone, Option.none_or, hfind]
        rfl
      rw [hnew, hD]
      simp only [hold]
      exact congrArg (Prod.mk i) (by omega)
    | none =>
      have hold : getSectionRange st.lines i = (i, st.lines.length - 1) := by
        unfold getSectionRange
        rw [hfind]
      have hnew : getSectionRange
          (st.lines.take (i + 1) ++ (copySection st i).1 ++ st.lines.drop (i + 1)) i =
          (i, (st.lines.take (i + 1) ++ (copySection st i).1 ++
            st.lines.drop (i + 1)).length - 1) := by
        unfold getSectionRange
        rw [hdrop, List.findIdx?_append, hDnone, Option.none_or, hfind]
        rfl
      have hlen2 : (st.lines.take (i + 1) ++ (copySection st i).1 ++
          st.lines.drop (i + 1)).length =
          (i + 1) + (copySection st i).1.length + (st.lines.length - (i + 1)) := by
        simp [List.length_take]
        omega
      rw [hnew, hlen2, hlen1]
      simp only [hold]
      exact congrArg (Prod.mk i) (by omega)
  refine ⟨hlen1, rfl, hgoal3, hpasted, ?_, ?_⟩
  · rw [hpasted, List.length_mapIdx]
  · intro j hj hj'
    have hmem : (sectionSrcChords st i).get ⟨j, hj'⟩ ∈ sectionSrcChords st i :=
      List.get_mem _ _ _
    have hpred : i + 1 ≤ ((sectionSrcChords st i).get ⟨j, hj'⟩).lineIndex := by
      have := (List.mem_filter.mp hmem).2
      simp only [decide_eq_true_eq] at this
      exact this.1
    have hget : (pastedChords st i freshId).get ⟨j, hj⟩ =
        { (sectionSrcChords st i).get ⟨j, hj'⟩ with
            id := freshId j,
            lineIndex :=
              ((sectionSrcChords st i).get ⟨j, hj'⟩).lineIndex - (i + 1) + (i + 1) } := by
      simp [hpasted, List.get_eq_getElem, List.getElem_mapIdx]
    rw [hget]
    refine ⟨rfl, ?_, rfl, rfl, rfl⟩
    dsimp only
    omega

/-- Concrete five-line document with one section chord, for the C7
witness. -/
def demoSectionState : ColumnState :=
  ⟨[['[', 'A', ']'], ['x'], ['y'], ['[', 'B', ']'], ['z']],
   [⟨['p'], ['C'], ['C'], 2, 4, 7⟩]⟩

/-- Witness for C7: pasting the copied first section onto its own header in
the concrete document doubles the section's extent. -/
theorem c7_witness :
    0 < demoSectionState.lines.length ∧
    getSectionRange
        (pasteSection demoSectionState (copySection demoSectionState 0) 0
          (fun _ => ['n'])).lines 0 =
      (0, (getSectionRange demoSectionState.lines 0).2 +
        ((getSectionRange demoSectionState.lines 0).2 - 0)) :=
  ⟨by decide,
    (c7_section_round_trip demoSectionState 0 (fun _ => ['n']) (by decide)).2.2.1⟩

/-! ## C2: transposition round trip over the catalog -/

/-- The quality suffixes of the catalog: the symbols generated for the empty
root are exactly the quality strings appended to every root. -/
def QUALITIES : List Str := (generateChordsForRoot []).map (fun c => c.symbol)

set_option maxRecDepth 40000 in
set_option maxHeartbeats 2000000 in
/-- Finite check over the catalog: every entry parses into its root, its
quality suffix and no bass; the suffix is a known quality; the root is a
known root; root and suffix concatenate back to the symbol; and the flat
preference the application derives equals the root's flatness. -/
theorem catalogParseFacts :
    CHORD_DATABASE.all (fun c =>
      decide (parseChord c.symbol =
        some ⟨c.root, c.symbol.drop c.root.length, none⟩) &&
      decide (c.symbol.drop c.root.length ∈ QUALITIES) &&
      decide (c.root ∈ ROOT_NOTES) &&
      decide (c.root ++ c.symbol.drop c.root.length = c.symbol) &&
      decide (shouldPreferFlats c.symbol = c.root.contains '♭')) = true := by
  decide

set_option maxRecDepth 40000 in
set_option maxHeartbeats 2000000 in
/-- Finite check: every chromatic scale note followed by any catalog quality
parses into that note, that quality and no bass. -/
theorem scaleParseFacts :
    (CHROMATIC_SHARP ++ CHROMATIC_FLAT).all (fun note =>
      QUALITIES.all (fun q =>
        decide (parseChord (note ++ q) = some ⟨note, q, none⟩))) = true := by
  decide

set_option maxRecDepth 40000 in
set_option maxHeartbeats 2000000 in
/-- Finite check: for every catalog root and semitone amount in range, with
the root's own flat preference, the transposed note is a chromatic scale
note and transposing it back restores the root. -/
theorem noteRoundTripFacts :
    ROOT_NOTES.all (fun root =>
      semitoneRange.all (fun n =>
        decide (transposeNote root n (root.contains '♭') ∈
          CHROMATIC_SHARP ++ CHROMATIC_FLAT) &&
        decide (transposeNote (transposeNote root n (root.contains '♭')) (-n)
          (root.contains '♭') = root))) = true := by
  decide

/-- Propositional form of the per-entry catalog facts. -/
theorem catalog_facts (c : ChordDefinition) (hc : c ∈ CHORD_DATABASE) :
    parseChord c.symbol = some ⟨c.root, c.symbol.drop c.root.length, none⟩ ∧
    c.symbol.drop c.root.length ∈ QUALITIES ∧
    c.root ∈ ROOT_NOTES ∧
    c.root ++ c.symbol.drop c.root.length = c.symbol ∧
    shouldPreferFlats c.symbol = c.root.contains '♭' := by
  have h := List.all_eq_true.mp catalogParseFacts c hc
  simp only [Bool.and_eq_true, decide_eq_true_eq] at h
  tauto

/-- Every integer between -12 and 12 is in the semitone range list. -/
theorem mem_semitoneRange (n : Int) (h1 : -12 ≤ n) (h2 : n ≤ 12) :
    n ∈ semitoneRange := by
  interval_cases n <;> decide

/-- Propositional form of the per-root note round-trip facts. -/
theorem note_round_trip (root : Str) (hr : root ∈ ROOT_NOTES) (n : Int)
    (hn : n ∈ semitoneRange) :
    transposeNote root n (root.contains '♭') ∈ CHROMATIC_SHARP ++ CHROMATIC_FLAT ∧
    transposeNote (transposeNote root n (root.contains '♭')) (-n)
      (root.contains '♭') = root := by
  have h := List.all_eq_true.mp (List.all_eq_true.mp noteRoundTripFacts root hr) n hn
  simp only [Bool.and_eq_true, decide_eq_true_eq] at h
  exact h

/-- Propositional form of the scale-note parse facts. -/
theorem scale_parse (note : Str) (hm : note ∈ CHROMATIC_SHARP ++ CHROMATIC_FLAT)
    (q : Str) (hq : q ∈ QUALITIES) :
    parseChord (note ++ q) = some ⟨note, q, none⟩ := by
  have h := List.all_eq_true.mp (List.all_eq_true.mp scaleParseFacts note hm) q hq
  simpa using h

/-- Unfolding of transposeChord on a successfully parsed, bass-free
symbol. -/
theorem transposeChord_parsed (chord : Str) (n : Int) (pf : Bool) (hn : n ≠ 0)
    (p : ParsedChord) (hp : parseChord chord = some p) (hb : p.bass = none) :
    transposeChord chord n pf = transposeNote p.root n pf ++ p.quality := by
  obtain ⟨root, quality, bass⟩ := p
  cases hb
  unfold transposeChord
  rw [if_neg hn, hp]

/-- Claim C2 (counterexample): the catalog chord B♭ does not survive a +1 then -1 round trip, neither with the default sharp preference nor with the
preference the application derives from each symbol at each call: it comes
back as the enharmonic A♯. -/
theorem c2_counterexample :
    (∃ c ∈ CHORD_DATABASE, c.symbol = ['B', '♭']) ∧
    (-12 : Int) ≤ 1 ∧ (1 : Int) ≤ 12 ∧
    transposeChord (transposeChord ['B', '♭'] 1 false) (-1) false = ['A', '♯'] ∧
    (['A', '♯'] : Str) ≠ ['B', '♭'] ∧
    transposeChord (transposeChord ['B', '♭'] 1 (shouldPreferFlats ['B', '♭'])) (-1)
      (shouldPreferFlats (transposeChord ['B', '♭'] 1 (shouldPreferFlats ['B', '♭']))) =
      ['A', '♯'] := by
  decide

/-- Claim C2 (amended): with the flat preference fixed to the one the
application derives from the original symbol, used for both calls, the +n then -n round trip restores every catalog chord for every n in [-12, 12]. -/
theorem c2_round_trip_with_preference (c : ChordDefinition) (hc : c ∈ CHORD_DATABASE)
    (n : Int) (h1 : -12 ≤ n) (h2 : n ≤ 12) :
    transposeChord (transposeChord c.symbol n (shouldPreferFlats c.symbol)) (-n)
      (shouldPreferFlats c.symbol) = c.symbol := by
  obtain ⟨hparse, hq, hr, hsym, hpf⟩ := catalog_facts c hc
  by_cases hn : n = 0
  · subst hn
    simp [transposeChord]
  · have hn' : (-n) ≠ 0 := by omega
    have hmem := mem_semitoneRange n h1 h2
    obtain ⟨hmid, hback⟩ := note_round_trip c.root hr n hmem
    rw [hpf]
    have e1 : transposeChord c.symbol n (c.root.contains '♭') =
        transposeNote c.root n (c.root.contains '♭') ++ c.symbol.drop c.root.length :=
      transposeChord_parsed _ _ _ hn _ hparse rfl
    have e2 : transposeChord
        (transposeNote c.root n (c.root.contains '♭') ++ c.symbol.drop c.root.length)
        (-n) (c.root.contains '♭') =
        transposeNote (transposeNote c.root n (c.root.contains '♭')) (-n)
          (c.root.contains '♭') ++ c.symbol.drop c.root.length :=
      transposeChord_parsed _ _ _ hn' _ (scale_parse _ hmid _ hq) rfl
    rw [e1, e2, hback, hsym]

/-- The A-major entry of the catalog, used by the C2 witness. -/
def chordAMajor : ChordDefinition :=
  ⟨['A'], ['A', ' ', 'M', 'a', 'j', 'o', 'r'], ['A'], some .major⟩

/-- Witness for amended C2: the A-major chord survives a +3 then -3 round trip. -/
theorem c2_witness :
    chordAMajor ∈ CHORD_DATABASE ∧ (-12 : Int) ≤ 3 ∧ (3 : Int) ≤ 12 ∧
    transposeChord
        (transposeChord chordAMajor.symbol 3 (shouldPreferFlats chordAMajor.symbol))
        (-3) (shouldPreferFlats chordAMajor.symbol) = chordAMajor.symbol :=
  ⟨by decide, by decide, by decide,
    c2_round_trip_with_preference chordAMajor (by decide) 3 (by decide) (by decide)⟩

/-! ## C10: totality of transposition -/

/-- Claim C10: transposeChord returns its input unchanged whenever the
semitone amount is zero or the symbol does not parse as a chord. -/
theorem c10_transpose_total (s : Str) (n : Int) (pf : Bool)
    (h : n = 0 ∨ parseChord s = none) : transposeChord s n pf = s := by
  by_cases hn : n = 0
  · simp [transposeChord, hn]
  · rcases h with h | h
    · exact absurd h hn
    · simp [transposeChord, hn, h]

/-- Witness for C10: a non-chord word is returned unchanged. -/
theorem c10_witness :
    parseChord ['h', 'e', 'l', 'l', 'o'] = none ∧
    transposeChord ['h', 'e', 'l', 'l', 'o'] 5 false = ['h', 'e', 'l', 'l', 'o'] :=
  ⟨by decide, c10_transpose_total _ 5 false (Or.inr (by decide))⟩

end ChordSheet
